import Mathlib

/-!
Verification of the Property24 listing scraper (`src/concurr.py`).

The Python source is shallowly embedded in Lean:

* Python strings become `List Char`; Python string methods (`strip`, `split`,
  `replace`, `startswith`, `isdigit`) become executable list functions below.
* Python sets of strings become `Finset (List Char)`.
* Python dicts with string keys become ordered association lists with an
  overwriting update (`dictSet`), matching dict insertion-order semantics.
* The compiled regular expression `PROPERTY24_REGEX` becomes an executable
  backtracking matcher (`property24_match`) whose pieces mirror the pattern
  components one-to-one.
* Fallible fetch/parse steps become `Except` values; an exception raised by
  the transport or parser is an `Except.error` observed at the start of a
  task body, exactly where the source's `try` blocks catch it.
* Cooperative `asyncio` concurrency is modelled as an arbitrary
  serialisation of the atomic (suspension-free) critical sections: neither
  the check-and-insert on `scraped_links` (concurr.py lines 226-228) nor the
  lock-guarded block on `listing_nums` (lines 265-276) contains an `await`,
  so every interleaving of the tasks executes these sections atomically in
  some order.
-/

/-- Python strings are modelled as lists of characters. -/
abbrev CharL := List Char

/-- The whitespace characters removed by Python's `str.strip()`
(ASCII portion; the source's data is ASCII-spaced). -/
def pyIsSpace (c : Char) : Bool :=
  c == ' ' || c == '\t' || c == '\n' || c == '\r' || c == '\x0b' || c == '\x0c'

/-- Python `s.strip()`: remove leading and trailing whitespace. -/
def pyStrip (s : CharL) : CharL :=
  ((s.dropWhile pyIsSpace).reverse.dropWhile pyIsSpace).reverse

/-- Python `":" in text`. -/
def hasColon (s : CharL) : Bool := s.contains ':'

/-- Python `text.split(":")[0]` (and the first component of
`text.split(":", 1)`): the text before the first colon. -/
def splitColonLeft (s : CharL) : CharL := s.takeWhile (fun c => !(c == ':'))

/-- The second component of Python `text.split(":", 1)`:
everything after the first colon. -/
def splitColonRight (s : CharL) : CharL :=
  (s.dropWhile (fun c => !(c == ':'))).drop 1

/-- Python `text.isdigit()`: nonempty and all digits
(restricted to ASCII digits, which is all the source compares). -/
def pyIsDigitStr (s : CharL) : Bool := !(s.isEmpty) && s.all Char.isDigit

/-- concurr.py lines 80-83: the character class `[²³é°±]`
whose occurrences `remove_superscripts` deletes. -/
def supChars : List Char := ['²', '³', 'é', '°', '±']

/-- concurr.py lines 80-83: `re.sub(r'[²³é°±]', '', text)`,
i.e. delete every occurrence of the five characters in the class. -/
def remove_superscripts (text : CharL) : CharL :=
  text.filter (fun c => !(supChars.contains c))

/-- concurr.py lines 85-96: duplicated-description cleanup.  `desc[:half]` is
`take half`, `desc[half:]` is `drop half`, with `half = len(desc) // 2`. -/
def clean_description (desc : CharL) : CharL :=
  let half := desc.length / 2
  if pyStrip (desc.take half) == pyStrip (desc.drop half) then
    pyStrip (desc.take half)
  else
    pyStrip desc

/-- Fuel-driven core of Python `str.replace`: replace every (left-to-right,
non-overlapping) occurrence of `pat` by `rep`.  One character is consumed per
step, so `s.length` fuel suffices.  (Call sites use a nonempty `pat`.) -/
def pyReplaceAux (pat rep : CharL) : Nat → CharL → CharL
  | 0, s => s
  | _ + 1, [] => []
  | fuel + 1, c :: rest =>
    if !(pat.isEmpty) && pat.isPrefixOf (c :: rest) then
      rep ++ pyReplaceAux pat rep fuel ((c :: rest).drop pat.length)
    else
      c :: pyReplaceAux pat rep fuel rest

/-- Python `s.replace(pat, rep)` for nonempty `pat`. -/
def pyReplace (s pat rep : CharL) : CharL := pyReplaceAux pat rep s.length s

/-! ### The listing-URL pattern

concurr.py lines 35-41:

    PROPERTY24_REGEX = re.compile(
        r"^https://(www\.)?property24\.com/for-sale/"
        r".+?/.+?/.+?/\d+/\d+/?(\?.*)?$",
        re.IGNORECASE)

The matcher below decides whether a whole string matches this pattern.
`re.IGNORECASE` is modelled by lowercasing the subject (the pattern's
literals are already lowercase); `.` matches any character except a newline;
`\d` is a digit (ASCII approximation of the Unicode class); the lazy
qualifiers `+?` do not affect whether a match exists; `$` also matches just
before a single trailing newline. -/

/-- The regex metacharacter `.`: any character except a newline. -/
def dotC (c : Char) : Bool := !(c == '\n')

/-- Match `X+?/` (one or more characters satisfying `p`, then a literal `/`)
against a prefix of `r`, continuing with `cont` on the rest; tries every
possible split, so it decides existence of a match. -/
def matchSeg (p : Char → Bool) (cont : CharL → Bool) (r : CharL) : Bool :=
  (List.range r.length).any (fun j =>
    ((r.take (j + 1)).all p) &&
      (match r.drop (j + 1) with
       | '/' :: rest => cont rest
       | _ => false))

/-- Match the pattern tail `/?(\?.*)?$` (optional slash, optional query,
end of string, also accepting a single trailing newline before `$`). -/
def tailOK (r : CharL) : Bool :=
  let r' := if r.getLast? == some '\n' then r.dropLast else r
  r' == [] || r' == ['/'] ||
    (match r' with
     | '?' :: q => q.all dotC
     | '/' :: '?' :: q => q.all dotC
     | _ => false)

/-- Match `\d+` followed by the pattern tail `/?(\?.*)?$`. -/
def lastNum (r : CharL) : Bool :=
  (List.range r.length).any (fun j =>
    ((r.take (j + 1)).all Char.isDigit) && tailOK (r.drop (j + 1)))

/-- Match `.+?/.+?/.+?/\d+/\d+/?(\?.*)?$`. -/
def segsTail (r : CharL) : Bool :=
  matchSeg dotC (matchSeg dotC (matchSeg dotC (matchSeg Char.isDigit lastNum))) r

/-- Decide a full match of `PROPERTY24_REGEX` (`re.match` on the anchored
pattern): the two alternatives of `(www\.)?` are tried explicitly. -/
def property24_match (s : CharL) : Bool :=
  let t := s.map Char.toLower
  (("https://www.property24.com/for-sale/".data).isPrefixOf t &&
    segsTail (t.drop "https://www.property24.com/for-sale/".length))
  ||
  (("https://property24.com/for-sale/".data).isPrefixOf t &&
    segsTail (t.drop "https://property24.com/for-sale/".length))

/-- concurr.py lines 221-222: a root-relative link (starting with `/`) is
rewritten against the fixed host. -/
def resolve_href (href : CharL) : CharL :=
  match href with
  | '/' :: _ => "https://www.property24.com".data ++ href
  | _ => href

/-! ### Batching -/

/-- Python `range(start, stop, step)` for `step > 0`: the values
`start, start+step, ...` below `stop`. -/
def pythonRange (start stop step : Nat) : List Nat :=
  List.range' start ((stop - start + step - 1) / step) step

/-- concurr.py lines 192-195:

    def chunker(lst, n):
        for i in range(0, len(lst), n):
            yield lst[i:i + n]

`lst[i:i+n]` is `(lst.drop i).take n`.  (Python raises for `n = 0`; the
claims about `chunker` assume a positive batch size.) -/
def chunker {α : Type} (lst : List α) (n : Nat) : List (List α) :=
  (pythonRange 0 lst.length n).map (fun i => (lst.drop i).take n)

/-! ### The record dictionary

`extract_listing_data` builds a Python dict with string keys.  A dict is an
ordered association list with at most one binding per key; assignment
overwrites the existing binding in place (keeping its position) or appends a
fresh binding at the end. -/

/-- The values stored in a listing record: strings, the features list of
strings, or Python `None` (the `image_url` default). -/
inductive FieldVal : Type
  | str (s : CharL)
  | strList (l : List CharL)
  | none
deriving DecidableEq, Repr

/-- A Python dict with string keys, as an ordered association list. -/
abbrev Dict := List (CharL × FieldVal)

/-- Python `data[k]` as an `Option` (the source only reads keys it has
just written, so the `Option.none` case never fires there). -/
def dictGet : Dict → CharL → Option FieldVal
  | [], _ => Option.none
  | p :: d, k => if p.1 == k then some p.2 else dictGet d k

/-- Python `data[k] = v`: overwrite the binding of `k` in place,
or append a new binding. -/
def dictSet : Dict → CharL → FieldVal → Dict
  | [], k, v => [(k, v)]
  | p :: d, k, v => if p.1 == k then (k, v) :: d else p :: dictSet d k v

/-- A sequence of dict assignments, performed left to right. -/
def dictSets (d : Dict) (ps : List (CharL × FieldVal)) : Dict :=
  ps.foldl (fun d p => dictSet d p.1 p.2) d

/-- Reading a string-valued entry (models reading back `data["size"]`,
which the source has just set to a string). -/
def getStr : Option FieldVal → CharL
  | some (.str s) => s
  | _ => []

/-! ### The parsed listing page

The parser (BeautifulSoup) is an external collaborator; the extractor only
issues the fixed selector queries below and consumes their text results, so
a parsed page is modelled by those results.  Each `Option CharL` field is
the `get_text`/attribute result of one query (`Option.none` when the
element is absent). -/

structure Soup : Type where
  /-- `soup.find(class_="p24_price")`, text content. -/
  price_elem : Option CharL
  /-- `soup.find(class_="p24_size")`, text content. -/
  size_elem : Option CharL
  /-- `soup.find(class_="js_readMoreText")`, text content. -/
  readMoreText : Option CharL
  /-- `soup.find(class_="js_readMoreContainer")`, text content. -/
  readMoreContainer : Option CharL
  /-- `soup.find_all(class_="p24_listingFeatures")`, text contents. -/
  listingFeatures : List CharL
  /-- `soup.find(class_="p24_addressPropOverview")`, text content. -/
  address_elem : Option CharL
  /-- `soup.select("#breadCrumbContainer li:not(:first-child)")`, texts. -/
  breadcrumb_items : List CharL
  /-- `soup.select_one(".p24_propertyOverviewRow:nth-child(1) .p24_info")`. -/
  listing_no_elem : Option CharL
  /-- The `js_lightboxImageWrapper` div: absent, or present with an optional
  `data-image-url` attribute. -/
  image_wrapper : Option (Option CharL)
deriving DecidableEq

/-- Fixed dict keys used by the extractor. -/
def priceK : CharL := "price".data

def sizeK : CharL := "size".data

def descK : CharL := "description".data

def featuresK : CharL := "features".data

def addressK : CharL := "address".data

def provinceK : CharL := "Province".data

def cityK : CharL := "City".data

def townK : CharL := "Town".data

def listingNoK : CharL := "ListingNo".data

def imageK : CharL := "image_url".data

def urlK : CharL := "url".data

/-- concurr.py line 112: the price value
(`price_elem.get_text(strip=True) if price_elem else "None"`). -/
def priceRule (s : Soup) : CharL :=
  match s.price_elem with
  | some t => t
  | Option.none => "None".data

/-- concurr.py line 118: the first size assignment when the element exists
(`size_text.split(":")[0].strip() if ":" in size_text else size_text`). -/
def sizePre (size_text : CharL) : CharL :=
  if hasColon size_text then pyStrip (splitColonLeft size_text) else size_text

/-- concurr.py lines 126-129: the description element with fallback
(`js_readMoreText`, else `js_readMoreContainer`). -/
def desc_elem_of (s : Soup) : Option CharL :=
  match s.readMoreText with
  | some t => some t
  | Option.none => s.readMoreContainer

/-- concurr.py lines 131-138: the description value — the element text with
`" Read Less"` removed, deduplicated, artifact characters stripped; default
`"None Found"`. -/
def descRule (s : Soup) : CharL :=
  match desc_elem_of s with
  | some t =>
      remove_superscripts (clean_description (pyReplace t " Read Less".data []))
  | Option.none => "None Found".data

/-- concurr.py line 158: the address value (default `"None found"`). -/
def addressRule (s : Soup) : CharL :=
  match s.address_elem with
  | some t => t
  | Option.none => "None found".data

/-- concurr.py lines 165-168: the breadcrumb texts kept as location crumbs
(separator tokens and purely numeric texts are filtered out). -/
def crumbsOf (s : Soup) : List CharL :=
  s.breadcrumb_items.filter (fun t =>
    !([['|'], ['>'], "Back to Results".data, "Property for Sale".data].contains t)
      && !(pyIsDigitStr t))

/-- concurr.py line 181: the listing-number value (default `"None"`). -/
def listingNoRule (s : Soup) : CharL :=
  match s.listing_no_elem with
  | some t => t
  | Option.none => "None".data

/-- concurr.py line 186: the image value — the `data-image-url` attribute if
the wrapper element exists and has it, else Python `None`. -/
def imageRule (s : Soup) : FieldVal :=
  match s.image_wrapper with
  | some (some u) => .str u
  | _ => FieldVal.none

/-- concurr.py lines 98-188: `extract_listing_data`, translated step by
step.  The features loop threads the dict together with the `features`
accumulator list, exactly as the source does. -/
def extract_listing_data (soup : Soup) : Dict :=
  let data : Dict := []
  -- lines 110-112: price
  let data := dictSet data priceK (.str (priceRule soup))
  -- lines 115-122: size (two successive assignments in the present case,
  -- the second reading back the value just stored)
  let data :=
    match soup.size_elem with
    | some size_text =>
        let data := dictSet data sizeK (.str (sizePre size_text))
        dictSet data sizeK (.str (remove_superscripts (getStr (dictGet data sizeK))))
    | Option.none => dictSet data sizeK (.str "None".data)
  -- lines 126-138: description
  let data := dictSet data descK (.str (descRule soup))
  -- lines 140-154: features loop, then the features list itself
  let fr := soup.listingFeatures.foldl
    (fun (st : Dict × List CharL) text =>
      if hasColon text then
        (dictSet st.1 (pyStrip (splitColonLeft text))
          (.str (pyStrip (splitColonRight text))), st.2)
      else
        (st.1, st.2 ++ [text]))
    (data, [])
  let data := dictSet fr.1 featuresK (.strList fr.2)
  -- lines 157-158: address
  let data := dictSet data addressK (.str (addressRule soup))
  -- lines 162-175: location crumbs
  let crumbs := crumbsOf soup
  let data := if 1 ≤ crumbs.length then dictSet data provinceK (.str (crumbs.getD 0 [])) else data
  let data := if 2 ≤ crumbs.length then dictSet data cityK (.str (crumbs.getD 1 [])) else data
  let data := if 3 ≤ crumbs.length then dictSet data townK (.str (crumbs.getD 2 [])) else data
  -- lines 180-181: listing number
  let data := dictSet data listingNoK (.str (listingNoRule soup))
  -- lines 185-186: image URL
  let data := dictSet data imageK (imageRule soup)
  data

/-! ### Phase 1: search pages -/

/-- The set of already reserved listing URLs
(`scraped_links` / `listing_nums` are Python sets of strings). -/
abbrev UrlSet := Finset CharL

/-- concurr.py lines 218-228: the body of the link loop for one anchor:
resolve a root-relative `href`, and if it matches the listing pattern and
has not been reserved globally, emit it and reserve it.  The state is the
pair (links emitted by this page, global `scraped_links`).  This check-and-
insert contains no suspension point, so it is one atomic step of a task. -/
def page_step (st : List CharL × UrlSet) (href : CharL) : List CharL × UrlSet :=
  let h := resolve_href href
  if property24_match h = true ∧ h ∉ st.2 then (st.1 ++ [h], insert h st.2)
  else st

/-- concurr.py lines 199-236: `async_scrape_page`.  The fetched and parsed
page is an `Except`: an error is an exception raised by the transport or
parser, caught by the task's `try` (lines 233-236), which yields `[]` and
leaves the global state untouched. -/
def async_scrape_page_model (fetch : Except CharL (List CharL))
    (scraped : UrlSet) : List CharL × UrlSet :=
  match fetch with
  | .ok hrefs => hrefs.foldl page_step ([], scraped)
  | .error _ => ([], scraped)

/-- concurr.py lines 309-315 (phase 1 of `main`): run the page tasks in some
completion order and collect each task's link list separately (the
`asyncio.gather` results).  Tasks are processed one page at a time because
the whole link loop of a page contains no `await`. -/
def gather_phase1 (fetches : List (Except CharL (List CharL)))
    (scraped0 : UrlSet) : List (List CharL) × UrlSet :=
  fetches.foldl
    (fun st f =>
      let r := async_scrape_page_model f st.2
      (st.1 ++ [r.1], r.2))
    ([], scraped0)

/-- concurr.py lines 307-315: `all_listing_links`, the flattened candidate
list produced by phase 1 (`all_listing_links.extend(links)`). -/
def run_phase1 (fetches : List (Except CharL (List CharL)))
    (scraped0 : UrlSet) : List CharL × UrlSet :=
  fetches.foldl
    (fun st f =>
      let r := async_scrape_page_model f st.2
      (st.1 ++ r.1, r.2))
    ([], scraped0)

/-! ### Phase 2: listing pages -/

/-- Reading `listing_data["ListingNo"]` from a record (the extractor always
stores a string there, so the default branch is unreachable at call sites). -/
def listingNoD (d : Dict) : CharL := getStr (dictGet d listingNoK)

/-- concurr.py lines 238-281: `async_scrape_listing`.  On a fetch/parse
error the task's `except` (lines 278-281) yields `Option.none` and leaves
`listing_nums` untouched.  Otherwise the record is extracted, the source URL
added, and the lock-guarded duplicate check (lines 265-276) applied: a
record with a fresh listing number is returned and its number reserved; a
record with the sentinel number `"None"` is always returned; a duplicate
yields `Option.none`. -/
def async_scrape_listing_model (fetch : Except CharL Soup) (url : CharL)
    (nums : UrlSet) : Option Dict × UrlSet :=
  match fetch with
  | .error _ => (Option.none, nums)
  | .ok soup =>
      let d := dictSet (extract_listing_data soup) urlK (.str url)
      let no := listingNoD d
      if no ≠ "None".data ∧ no ∉ nums then (some d, insert no nums)
      else if no = "None".data then (some d, nums)
      else (Option.none, nums)

/-- One phase-2 completion step (concurr.py lines 335-339): run a listing
task against the current identifier set and append the returned record, if
any, to the accumulated `data_bun`. -/
def listing_step (st : List Dict × UrlSet)
    (fu : Except CharL Soup × CharL) : List Dict × UrlSet :=
  let r := async_scrape_listing_model fu.1 fu.2 st.2
  (match r.1 with
   | some d => st.1 ++ [d]
   | Option.none => st.1, r.2)

/-- concurr.py lines 330-339 (phase 2 of `main`): run the listing tasks in
some completion order and append each returned record to `data_bun`
(`if data: data_bun.append(data)`). -/
def run_phase2 (fetches : List (Except CharL Soup × CharL))
    (nums0 : UrlSet) : List Dict × UrlSet :=
  fetches.foldl listing_step ([], nums0)

/-- A listing task whose fetch succeeds and whose extracted record carries
the sentinel listing number `"None"`. -/
def okSentinel (fu : Except CharL Soup × CharL) : Bool :=
  match fu.1 with
  | .ok soup => listingNoD (extract_listing_data soup) == "None".data
  | .error _ => false

/-! ### The assignment list of the extractor

For the proofs about `extract_listing_data` it is convenient to know that
the dict it returns is exactly the list of assignments the source performs,
applied in order to the empty dict. -/

/-- The key/value pairs promoted to top-level fields by the features loop
(concurr.py lines 146-149), in order. -/
def promotedOf (fs : List CharL) : List (CharL × FieldVal) :=
  fs.filterMap (fun t =>
    if hasColon t then
      some (pyStrip (splitColonLeft t), .str (pyStrip (splitColonRight t)))
    else Option.none)

/-- The size assignments (concurr.py lines 115-122): two successive writes
when the element exists, one default write otherwise. -/
def sizeAssigns (s : Soup) : List (CharL × FieldVal) :=
  match s.size_elem with
  | some size_text =>
      [(sizeK, .str (sizePre size_text)),
       (sizeK, .str (remove_superscripts (sizePre size_text)))]
  | Option.none => [(sizeK, .str "None".data)]

/-- The conditional location assignments (concurr.py lines 170-175). -/
def crumbAssigns (crumbs : List CharL) : List (CharL × FieldVal) :=
  (if 1 ≤ crumbs.length then [(provinceK, FieldVal.str (crumbs.getD 0 []))] else [])
    ++ (if 2 ≤ crumbs.length then [(cityK, FieldVal.str (crumbs.getD 1 []))] else [])
    ++ (if 3 ≤ crumbs.length then [(townK, FieldVal.str (crumbs.getD 2 []))] else [])

/-- All dict assignments performed by `extract_listing_data`, in order. -/
def assignList (s : Soup) : List (CharL × FieldVal) :=
  [(priceK, FieldVal.str (priceRule s))]
    ++ sizeAssigns s
    ++ [(descK, FieldVal.str (descRule s))]
    ++ promotedOf s.listingFeatures
    ++ [(featuresK, FieldVal.strList (s.listingFeatures.filter (fun t => !(hasColon t)))),
        (addressK, FieldVal.str (addressRule s))]
    ++ crumbAssigns (crumbsOf s)
    ++ [(listingNoK, FieldVal.str (listingNoRule s)),
        (imageK, imageRule s)]

/-- The last value assigned to key `k` in an assignment sequence, if any. -/
def lastVal : List (CharL × FieldVal) → CharL → Option FieldVal
  | [], _ => Option.none
  | p :: ps, k =>
      match lastVal ps k with
      | some v => some v
      | Option.none => if p.1 == k then some p.2 else Option.none

/-! ### Dictionary lemmas -/

theorem dictGet_dictSet (d : Dict) (k k' : CharL) (v : FieldVal) :
    dictGet (dictSet d k v) k' = if k = k' then some v else dictGet d k' := by
  induction d with
  | nil => by_cases h : k = k' <;> simp [dictSet, dictGet, h]
  | cons p d ih =>
    by_cases hp : p.1 = k
    · by_cases hk : k = k' <;> simp [dictSet, dictGet, hp, hk]
    · by_cases hk' : p.1 = k'
      · have hk : ¬k = k' := fun h => hp (hk'.trans h.symm)
        have hk2 : ¬k' = k := fun h => hk h.symm
        simp [dictSet, dictGet, hp, hk', hk, hk2]
      · by_cases hk : k = k'
        · subst hk
          simp [dictSet, dictGet, hp, hk', ih]
        · simp [dictSet, dictGet, hp, hk', hk, ih]

theorem dictSets_append (d : Dict) (ps qs : List (CharL × FieldVal)) :
    dictSets d (ps ++ qs) = dictSets (dictSets d ps) qs := by
  simp [dictSets, List.foldl_append]

theorem dictGet_dictSets (ps : List (CharL × FieldVal)) :
    ∀ (d : Dict) (k : CharL),
      dictGet (dictSets d ps) k =
        match lastVal ps k with
        | some v => some v
        | Option.none => dictGet d k := by
  induction ps with
  | nil => intro d k; simp [dictSets, lastVal]
  | cons p ps ih =>
    intro d k
    have h1 : dictSets d (p :: ps) = dictSets (dictSet d p.1 p.2) ps := rfl
    rw [h1, ih]
    cases h : lastVal ps k with
    | some v => simp [lastVal, h]
    | none =>
        by_cases hk : p.1 = k <;> simp [lastVal, h, dictGet_dictSet, hk]

theorem lastVal_append (xs ys : List (CharL × FieldVal)) (k : CharL) :
    lastVal (xs ++ ys) k =
      match lastVal ys k with
      | some v => some v
      | Option.none => lastVal xs k := by
  induction xs with
  | nil => cases h : lastVal ys k <;> simp [lastVal, h]
  | cons p xs ih =>
      cases h : lastVal ys k <;> simp [lastVal, ih, h]

theorem lastVal_eq_none (ps : List (CharL × FieldVal)) (k : CharL)
    (h : ∀ p ∈ ps, p.1 ≠ k) : lastVal ps k = Option.none := by
  induction ps with
  | nil => rfl
  | cons p ps ih =>
      have hp : p.1 ≠ k := h p (by simp)
      simp [lastVal, ih (fun q hq => h q (by simp [hq])), hp]

theorem feat_loop (fs : List CharL) :
    ∀ (d : Dict) (acc : List CharL),
      fs.foldl
        (fun (st : Dict × List CharL) text =>
          if hasColon text then
            (dictSet st.1 (pyStrip (splitColonLeft text))
              (.str (pyStrip (splitColonRight text))), st.2)
          else
            (st.1, st.2 ++ [text]))
        (d, acc)
      = (dictSets d (promotedOf fs), acc ++ fs.filter (fun t => !(hasColon t))) := by
  induction fs with
  | nil => intro d acc; simp [promotedOf, dictSets]
  | cons t fs ih =>
      intro d acc
      by_cases h : hasColon t <;>
        simp [h, ih, promotedOf, dictSets]

theorem extract_eq (s : Soup) :
    extract_listing_data s = dictSets [] (assignList s) := by
  unfold extract_listing_data assignList
  cases hs : s.size_elem <;>
    simp [feat_loop, sizeAssigns, hs, crumbAssigns, dictSets_append, dictSets,
      dictGet_dictSet, getStr] <;>
    split_ifs <;>
    simp [dictSets]

/-- The dict produced by the extractor, read through its assignment list. -/
theorem extract_get (s : Soup) (k : CharL) :
    dictGet (extract_listing_data s) k = lastVal (assignList s) k := by
  rw [extract_eq, dictGet_dictSets]
  cases h : lastVal (assignList s) k <;> simp [dictGet, h]

/-! ### Claim C4: URL resolution and the listing pattern -/

/-- C4: the root-relative link `/for-sale/gauteng/region/town/123/456` is
rewritten against the fixed host to exactly
`https://www.property24.com/for-sale/gauteng/region/town/123/456`, which
matches `PROPERTY24_REGEX`; the otherwise identical URL with only two
non-empty path segments between `/for-sale/` and the numeric pair does not
match. -/
theorem C4_resolution_and_pattern :
    resolve_href "/for-sale/gauteng/region/town/123/456".data
        = "https://www.property24.com/for-sale/gauteng/region/town/123/456".data
    ∧ property24_match
        "https://www.property24.com/for-sale/gauteng/region/town/123/456".data = true
    ∧ property24_match
        "https://www.property24.com/for-sale/region/town/123/456".data = false := by
  exact ⟨by decide, by decide, by decide⟩

/-! ### Claim C6: `clean_description` -/

/-- C6 counterexample: the claim as stated is false.  With `H = "a "` and
`H' = "a" = H.strip()`, the input `D = H ++ H'` is cleaned to `"a"`, not to
`H = "a "`; and `clean_description` is not idempotent: it maps `"aaaa"` to
`"aa"`, which a second application maps to `"a"`. -/
theorem C6_counterexample :
    ("a a".data = "a ".data ++ "a".data
      ∧ "a".data = pyStrip "a ".data
      ∧ clean_description "a a".data ≠ "a ".data)
    ∧ clean_description (clean_description "aaaa".data)
        ≠ clean_description "aaaa".data := by
  decide

/-- C6 (amended): for every description `D = H ++ H'` split at
`⌊|D|/2⌋` (i.e. `|H'| ∈ {|H|, |H|+1}`): if `H` and `H'` are equal after
trimming, the cleaned result is the *trimmed* `H`; otherwise it is
`D.strip()`.  `clean_description` is not idempotent in general, but an
already-trimmed string whose trimmed halves differ is returned unchanged. -/
theorem C6_clean_description_amended :
    (∀ H H' : CharL, (H'.length = H.length ∨ H'.length = H.length + 1) →
      (pyStrip H = pyStrip H' → clean_description (H ++ H') = pyStrip H)
      ∧ (pyStrip H ≠ pyStrip H' → clean_description (H ++ H') = pyStrip (H ++ H')))
    ∧ (∀ d : CharL, pyStrip d = d →
        pyStrip (d.take (d.length / 2)) ≠ pyStrip (d.drop (d.length / 2)) →
        clean_description d = d) := by
  constructor
  · intro H H' hl
    have hhalf : (H.length + H'.length) / 2 = H.length := by
      rcases hl with h | h <;> omega
    constructor
    · intro he
      simp [clean_description, List.length_append, hhalf, List.take_left,
        List.drop_left, he]
    · intro hne
      simp [clean_description, List.length_append, hhalf, List.take_left,
        List.drop_left, hne]
  · intro d hstrip hne
    simp [clean_description, hne, hstrip]

/-- C6 witness: a concrete application of the amended statement,
with `H = "ab"`, `H' = " ab"`. -/
theorem C6_amended_witness :
    (" ab".data.length = "ab".data.length + 1 ∧ pyStrip "ab".data = pyStrip " ab".data)
    ∧ clean_description ("ab".data ++ " ab".data) = pyStrip "ab".data := by
  refine ⟨⟨by decide, by decide⟩, ?_⟩
  exact (C6_clean_description_amended.1 "ab".data " ab".data (Or.inr (by decide))).1
    (by decide)

/-! ### Claim C10: `remove_superscripts` -/

/-- C10: `remove_superscripts` removes exactly the occurrences of the five
characters `²`, `³`, `é`, `°`, `±` (the result is a subsequence containing
none of them, and every other character keeps its multiplicity), it is
idempotent, and it alters any text containing the ordinary letter `é`, such
as `"café"`. -/
theorem C10_remove_superscripts_exact :
    (∀ t : CharL,
      List.Sublist (remove_superscripts t) t
      ∧ (∀ c, c ∈ supChars → c ∉ remove_superscripts t)
      ∧ (∀ c, c ∉ supChars → (remove_superscripts t).count c = t.count c)
      ∧ remove_superscripts (remove_superscripts t) = remove_superscripts t)
    ∧ remove_superscripts "café".data ≠ "café".data := by
  refine ⟨fun t => ⟨List.filter_sublist _, ?_, ?_, ?_⟩, by decide⟩
  · intro c hc hmem
    rw [remove_superscripts, List.mem_filter] at hmem
    simp at hmem
    exact hmem.2 hc
  · intro c hc
    rw [remove_superscripts]
    exact List.count_filter (by simpa using hc)
  · simp only [remove_superscripts, List.filter_filter]
    simp

/-- C10 witness: concrete instance of the multiplicity-preservation part. -/
theorem C10_witness :
    'a' ∉ supChars
    ∧ (remove_superscripts "café 25m²".data).count 'a'
        = "café 25m²".data.count 'a' := by
  refine ⟨by decide, ?_⟩
  exact ((C10_remove_superscripts_exact.1 "café 25m²".data).2.2.1 'a' (by decide))

/-! ### Claim C5: `chunker` -/

theorem chunker_nil {α : Type} (B : Nat) : chunker ([] : List α) B = [] := by
  rcases Nat.eq_zero_or_pos B with h | h
  · subst h; simp [chunker, pythonRange]
  · have h0 : ((([] : List α).length - 0 + B - 1)) / B = 0 :=
      Nat.div_eq_of_lt (by simp; omega)
    simp only [chunker, pythonRange, h0, List.range'_zero, List.map_nil]

theorem chunker_cons {α : Type} (B : Nat) (hB : 0 < B) (lst : List α)
    (h : lst ≠ []) :
    chunker lst B = lst.take B :: chunker (lst.drop B) B := by
  have hL : 0 < lst.length := List.length_pos.mpr h
  have hcount : (lst.length - 0 + B - 1) / B
      = ((lst.drop B).length - 0 + B - 1) / B + 1 := by
    rw [List.length_drop]
    rcases le_or_lt lst.length B with hle | hlt
    · have h1 : lst.length - B = 0 := by omega
      have h2 : lst.length - 0 + B - 1 = (lst.length - 1) + B := by omega
      have h3 : 0 - 0 + B - 1 = B - 1 := by omega
      rw [h1, h2, h3, Nat.add_div_right _ hB, Nat.div_eq_of_lt (by omega),
        Nat.div_eq_of_lt (by omega)]
    · have h2 : lst.length - 0 + B - 1 = ((lst.length - B) - 0 + B - 1) + B := by
        omega
      rw [h2, Nat.add_div_right _ hB]
  unfold chunker pythonRange
  rw [hcount, List.range'_succ]
  have hsh : List.range' (0 + B) (((lst.drop B).length - 0 + B - 1) / B) B
      = List.map (B + ·)
          (List.range' 0 (((lst.drop B).length - 0 + B - 1) / B) B) := by
    have e : 0 + B = B + 0 := by omega
    rw [e, List.map_add_range']
  simp only [List.map_cons, List.drop_zero, hsh, List.map_map]
  congr 1
  apply List.map_congr_left
  intro i _
  simp [Function.comp, List.drop_drop]

theorem chunker_join {α : Type} (B : Nat) (hB : 0 < B) :
    ∀ (fuel : Nat) (lst : List α), lst.length ≤ fuel →
      (chunker lst B).flatten = lst := by
  intro fuel
  induction fuel with
  | zero =>
      intro lst h
      have : lst = [] := List.eq_nil_of_length_eq_zero (by omega)
      subst this
      simp [chunker_nil]
  | succ n ih =>
      intro lst h
      rcases eq_or_ne lst [] with rfl | hne
      · simp [chunker_nil]
      · rw [chunker_cons B hB lst hne]
        have hpos := List.length_pos.mpr hne
        have hlen : (lst.drop B).length ≤ n := by
          rw [List.length_drop]; omega
        simp [ih _ hlen]

theorem chunker_sizes {α : Type} (B : Nat) (hB : 0 < B) :
    ∀ (fuel : Nat) (lst : List α), lst.length ≤ fuel →
      ∀ c ∈ (chunker lst B).dropLast, c.length = B := by
  intro fuel
  induction fuel with
  | zero =>
      intro lst h
      have : lst = [] := List.eq_nil_of_length_eq_zero (by omega)
      subst this
      simp [chunker_nil]
  | succ n ih =>
      intro lst h c hc
      rcases eq_or_ne lst [] with rfl | hne
      · simp [chunker_nil] at hc
      · rw [chunker_cons B hB lst hne] at hc
        have hpos := List.length_pos.mpr hne
        rcases eq_or_ne (lst.drop B) [] with hd | hd
        · rw [hd, chunker_nil] at hc
          simp at hc
        · have hch : chunker (lst.drop B) B ≠ [] := by
            rw [chunker_cons B hB _ hd]; simp
          rw [List.dropLast_cons_of_ne_nil hch] at hc
          rcases List.mem_cons.mp hc with rfl | hc'
          · have hBlt : B < lst.length := by
              by_contra hcon
              exact hd (List.drop_eq_nil_of_le (by omega))
            simp [List.length_take]
            omega
          · exact ih _ (by rw [List.length_drop]; omega) c hc'

theorem chunker_last {α : Type} (B : Nat) (hB : 0 < B) :
    ∀ (fuel : Nat) (lst : List α), lst.length ≤ fuel → lst.length % B ≠ 0 →
      ((chunker lst B).getLast?).map List.length = some (lst.length % B) := by
  intro fuel
  induction fuel with
  | zero =>
      intro lst h hm
      have : lst = [] := List.eq_nil_of_length_eq_zero (by omega)
      subst this
      simp at hm
  | succ n ih =>
      intro lst h hm
      have hne : lst ≠ [] := by
        intro hcon
        subst hcon
        simp at hm
      rw [chunker_cons B hB lst hne]
      have hpos := List.length_pos.mpr hne
      rcases eq_or_ne (lst.drop B) [] with hd | hd
      · have hle : lst.length ≤ B := by
          by_contra hcon
          have := congrArg List.length hd
          rw [List.length_drop] at this
          simp at this
          omega
        have hlt : lst.length < B := by
          rcases Nat.lt_or_ge lst.length B with h1 | h1
          · exact h1
          · exfalso
            have : lst.length = B := by omega
            rw [this, Nat.mod_self] at hm
            exact hm rfl
        rw [hd, chunker_nil]
        simp [List.length_take, Nat.mod_eq_of_lt hlt]
        omega
      · have hBlt : B < lst.length := by
          by_contra hcon
          exact hd (List.drop_eq_nil_of_le (by omega))
        have hch : chunker (lst.drop B) B ≠ [] := by
          rw [chunker_cons B hB _ hd]; simp
        have heq : lst.length % B = (lst.length - B) % B := by
          conv_lhs => rw [show lst.length = (lst.length - B) + B by omega]
          rw [Nat.add_mod_right]
        have hmod : (lst.drop B).length % B = lst.length % B := by
          rw [List.length_drop, heq]
        rcases hc : chunker (lst.drop B) B with _ | ⟨c0, rest⟩
        · exact absurd hc hch
        · rw [List.getLast?_cons_cons]
          have hih := ih (lst.drop B) (by rw [List.length_drop]; omega)
            (by rw [hmod]; exact hm)
          rw [hc] at hih
          rw [hih, hmod]

theorem chunker_sizes_dvd {α : Type} (B : Nat) (hB : 0 < B) :
    ∀ (fuel : Nat) (lst : List α), lst.length ≤ fuel → lst.length % B = 0 →
      ∀ c ∈ chunker lst B, c.length = B := by
  intro fuel
  induction fuel with
  | zero =>
      intro lst h _
      have : lst = [] := List.eq_nil_of_length_eq_zero (by omega)
      subst this
      simp [chunker_nil]
  | succ n ih =>
      intro lst h hm c hc
      rcases eq_or_ne lst [] with rfl | hne
      · simp [chunker_nil] at hc
      · rw [chunker_cons B hB lst hne] at hc
        have hpos := List.length_pos.mpr hne
        have hBle : B ≤ lst.length := by
          by_contra hcon
          rw [Nat.mod_eq_of_lt (by omega)] at hm
          omega
        have heq : lst.length % B = (lst.length - B) % B := by
          conv_lhs => rw [show lst.length = (lst.length - B) + B by omega]
          rw [Nat.add_mod_right]
        rcases List.mem_cons.mp hc with rfl | hc'
        · simp [List.length_take]
          omega
        · exact ih (lst.drop B) (by rw [List.length_drop]; omega)
            (by rw [List.length_drop, ← heq]; exact hm) c hc'

theorem chunker_len_bounds {α : Type} (B : Nat) (hB : 0 < B) (lst : List α) :
    lst.length ≤ (chunker lst B).length * B
    ∧ (chunker lst B).length * B < lst.length + B := by
  have hlen : (chunker lst B).length = (lst.length + B - 1) / B := by
    simp [chunker, pythonRange]
  obtain ⟨q, hq⟩ : ∃ q, (lst.length + B - 1) / B = q := ⟨_, rfl⟩
  obtain ⟨r, hr⟩ : ∃ r, (lst.length + B - 1) % B = r := ⟨_, rfl⟩
  have hdm := Nat.div_add_mod (lst.length + B - 1) B
  rw [hq, hr] at hdm
  have hrB : r < B := hr ▸ Nat.mod_lt _ hB
  rw [hlen, hq]
  obtain ⟨x, hx⟩ : ∃ x, q * B = x := ⟨_, rfl⟩
  rw [Nat.mul_comm] at hdm
  rw [hx] at hdm
  rw [hx]
  omega

/-- C5: for every task list and every batch size `B > 0`, `chunker`
partitions the list into exactly `⌈N/B⌉` consecutive groups (the count is
`(N+B-1)/B`, the unique `k` with `N ≤ k·B < N+B`): their concatenation is
the original list in order, every group except possibly the last has size
`B`, and the last has size `N % B` when that is nonzero (size `B`
otherwise). -/
theorem C5_chunker_partition {α : Type} (lst : List α) (B : Nat) (hB : 0 < B) :
    (chunker lst B).length = (lst.length + B - 1) / B
    ∧ lst.length ≤ (chunker lst B).length * B
    ∧ (chunker lst B).length * B < lst.length + B
    ∧ (chunker lst B).flatten = lst
    ∧ (∀ c ∈ (chunker lst B).dropLast, c.length = B)
    ∧ (lst.length % B ≠ 0 →
        ((chunker lst B).getLast?).map List.length = some (lst.length % B))
    ∧ (lst.length % B = 0 → ∀ c ∈ chunker lst B, c.length = B) := by
  refine ⟨?_, (chunker_len_bounds B hB lst).1, (chunker_len_bounds B hB lst).2,
    chunker_join B hB lst.length lst le_rfl,
    chunker_sizes B hB lst.length lst le_rfl,
    chunker_last B hB lst.length lst le_rfl,
    fun h => chunker_sizes_dvd B hB lst.length lst le_rfl h⟩
  simp [chunker, pythonRange]

/-- C5 witness: 25 tasks with batch size 10 yield exactly three groups, of
sizes 10, 10 and 5, concatenating back to the original task list. -/
theorem C5_chunker_witness :
    (0 < 10 ∧ (chunker (List.range 25) 10).flatten = List.range 25)
    ∧ (chunker (List.range 25) 10).map List.length = [10, 10, 5] := by
  exact ⟨⟨by decide,
    (C5_chunker_partition (List.range 25) 10 (by decide)).2.2.2.1⟩, by decide⟩

/-! ### Claim C1: each listing URL is reserved and emitted at most once -/

theorem page_foldl_inv (hrefs : List CharL) :
    ∀ (links : List CharL) (sc : UrlSet),
      (∀ u ∈ links, u ∈ sc) → links.Nodup →
      (∀ u ∈ (hrefs.foldl page_step (links, sc)).1,
          u ∈ (hrefs.foldl page_step (links, sc)).2)
      ∧ (hrefs.foldl page_step (links, sc)).1.Nodup
      ∧ (∀ u ∈ sc, u ∈ (hrefs.foldl page_step (links, sc)).2)
      ∧ (∀ u ∈ (hrefs.foldl page_step (links, sc)).1, u ∈ links ∨ u ∉ sc) := by
  induction hrefs with
  | nil =>
      intro links sc h1 h2
      exact ⟨h1, h2, fun u hu => hu, fun u hu => Or.inl hu⟩
  | cons a hrefs ih =>
      intro links sc h1 h2
      rw [List.foldl_cons]
      by_cases hcond : property24_match (resolve_href a) = true ∧ resolve_href a ∉ sc
      · have hstep : page_step (links, sc) a
            = (links ++ [resolve_href a], insert (resolve_href a) sc) := by
          simp only [page_step]
          rw [if_pos hcond]
        rw [hstep]
        have hnotin : resolve_href a ∉ links := fun hmem => hcond.2 (h1 _ hmem)
        have h1' : ∀ u ∈ links ++ [resolve_href a], u ∈ insert (resolve_href a) sc := by
          intro u hu
          rcases List.mem_append.mp hu with hu | hu
          · exact Finset.mem_insert_of_mem (h1 u hu)
          · simp at hu
            subst hu
            exact Finset.mem_insert_self _ _
        have h2' : (links ++ [resolve_href a]).Nodup := by
          simp [List.nodup_append, h2, hnotin]
        obtain ⟨g1, g2, g3, g4⟩ := ih (links ++ [resolve_href a]) _ h1' h2'
        refine ⟨g1, g2, fun u hu => g3 u (Finset.mem_insert_of_mem hu), ?_⟩
        intro u hu
        rcases g4 u hu with hu' | hu'
        · rcases List.mem_append.mp hu' with hu'' | hu''
          · exact Or.inl hu''
          · simp at hu''
            subst hu''
            exact Or.inr hcond.2
        · exact Or.inr fun hmem => hu' (Finset.mem_insert_of_mem hmem)
      · have hstep : page_step (links, sc) a = (links, sc) := by
          simp only [page_step]
          rw [if_neg hcond]
        rw [hstep]
        exact ih links sc h1 h2

theorem run1_foldl_inv (fetches : List (Except CharL (List CharL))) :
    ∀ (acc : List CharL) (sc : UrlSet),
      (∀ u ∈ acc, u ∈ sc) → acc.Nodup →
      (∀ u ∈ (fetches.foldl
          (fun st f =>
            let r := async_scrape_page_model f st.2
            (st.1 ++ r.1, r.2)) (acc, sc)).1,
          u ∈ (fetches.foldl
          (fun st f =>
            let r := async_scrape_page_model f st.2
            (st.1 ++ r.1, r.2)) (acc, sc)).2)
      ∧ (fetches.foldl
          (fun st f =>
            let r := async_scrape_page_model f st.2
            (st.1 ++ r.1, r.2)) (acc, sc)).1.Nodup := by
  induction fetches with
  | nil => intro acc sc h1 h2; exact ⟨h1, h2⟩
  | cons f fetches ih =>
      intro acc sc h1 h2
      rw [List.foldl_cons]
      cases f with
      | error e =>
          simp only [async_scrape_page_model, List.append_nil]
          exact ih acc sc h1 h2
      | ok hrefs =>
          have hpage := page_foldl_inv hrefs [] sc (by simp) List.nodup_nil
          set r := hrefs.foldl page_step ([], sc) with hr
          have h1' : ∀ u ∈ acc ++ r.1, u ∈ r.2 := by
            intro u hu
            rcases List.mem_append.mp hu with hu | hu
            · exact hpage.2.2.1 u (h1 u hu)
            · exact hpage.1 u hu
          have h2' : (acc ++ r.1).Nodup := by
            rw [List.nodup_append]
            refine ⟨h2, hpage.2.1, ?_⟩
            intro u hu hmem
            rcases hpage.2.2.2 u hmem with hu' | hu'
            · simp at hu'
            · exact hu' (h1 u hu)
          exact ih (acc ++ r.1) r.2 h1' h2'

theorem count_le_one_of_nodup : ∀ (l : List CharL), l.Nodup → ∀ (u : CharL),
    l.count u ≤ 1 := by
  intro l
  induction l with
  | nil => intro _ u; simp
  | cons a l ih =>
      intro hnd u
      rcases List.nodup_cons.mp hnd with ⟨ha, hl⟩
      rw [List.count_cons]
      by_cases hu : u = a
      · subst hu
        rw [List.count_eq_zero_of_not_mem ha]
        simp
      · simp [hu, Ne.symm hu]
        exact ih hl u

/-- C1: across any serialisation of the phase-1 tasks (page-level atomicity
is exact, since the reserve-and-emit loop contains no suspension point), a
normalized URL is reserved at most once: the flattened candidate list
`all_listing_links` contains no duplicates, whatever the initial reserved
set — so each distinct listing URL is emitted at most once per run. -/
theorem C1_url_reserved_once (fetches : List (Except CharL (List CharL)))
    (scraped0 : UrlSet) :
    (run_phase1 fetches scraped0).1.Nodup
    ∧ ∀ u : CharL, (run_phase1 fetches scraped0).1.count u ≤ 1 := by
  have h := run1_foldl_inv fetches [] scraped0 (by simp) List.nodup_nil
  exact ⟨h.2, fun u => count_le_one_of_nodup _ h.2 u⟩

/-! ### Claim C3: failures never cross task boundaries -/

theorem gather1_shift (fetches : List (Except CharL (List CharL))) :
    ∀ (acc : List (List CharL)) (sc : UrlSet),
      fetches.foldl
        (fun st f =>
          let r := async_scrape_page_model f st.2
          (st.1 ++ [r.1], r.2)) (acc, sc)
      = (acc ++ (gather_phase1 fetches sc).1, (gather_phase1 fetches sc).2) := by
  induction fetches with
  | nil => intro acc sc; simp [gather_phase1]
  | cons f fs ih =>
      intro acc sc
      simp only [gather_phase1, List.foldl_cons]
      rw [ih, ih]
      simp [List.append_assoc]

theorem gather1_length (fetches : List (Except CharL (List CharL))) :
    ∀ (sc : UrlSet), (gather_phase1 fetches sc).1.length = fetches.length := by
  induction fetches with
  | nil => intro sc; simp [gather_phase1]
  | cons f fs ih =>
      intro sc
      simp only [gather_phase1, List.foldl_cons]
      rw [gather1_shift fs]
      simp [ih]

theorem gather1_append (xs ys : List (Except CharL (List CharL))) (sc : UrlSet) :
    gather_phase1 (xs ++ ys) sc
      = ((gather_phase1 xs sc).1 ++ (gather_phase1 ys (gather_phase1 xs sc).2).1,
         (gather_phase1 ys (gather_phase1 xs sc).2).2) := by
  have h : gather_phase1 (xs ++ ys) sc
      = ys.foldl
          (fun st f =>
            let r := async_scrape_page_model f st.2
            (st.1 ++ [r.1], r.2)) (gather_phase1 xs sc) := by
    simp only [gather_phase1, List.foldl_append]
  rw [h]
  rcases hg : gather_phase1 xs sc with ⟨rs, sc'⟩
  rw [gather1_shift ys rs sc']

theorem gather1_error_cons (e : CharL) (post : List (Except CharL (List CharL)))
    (sc : UrlSet) :
    gather_phase1 (.error e :: post) sc
      = ([] :: (gather_phase1 post sc).1, (gather_phase1 post sc).2) := by
  have h : gather_phase1 (.error e :: post) sc
      = post.foldl
          (fun st f =>
            let r := async_scrape_page_model f st.2
            (st.1 ++ [r.1], r.2)) ([[]], sc) := rfl
  rw [h, gather1_shift post]
  simp

/-- C3: a failed task never leaks an exception.  A failed search-page task
yields the empty link list and leaves the reserved set untouched; a failed
listing task yields an absent record (`Option.none`) and leaves the
identifier set untouched; the batch driver records one observed result per
task regardless of failures; and a failing task in the middle of a batch
leaves every sibling task's processing exactly as it would have been, its
own slot holding the empty substitute. -/
theorem C3_failures_never_escape :
    (∀ (e : CharL) (scraped : UrlSet),
      async_scrape_page_model (.error e) scraped = ([], scraped))
    ∧ (∀ (e url : CharL) (nums : UrlSet),
      async_scrape_listing_model (.error e) url nums = (Option.none, nums))
    ∧ (∀ (fetches : List (Except CharL (List CharL))) (sc : UrlSet),
      (gather_phase1 fetches sc).1.length = fetches.length)
    ∧ (∀ (pre post : List (Except CharL (List CharL))) (e : CharL) (sc : UrlSet),
      gather_phase1 (pre ++ .error e :: post) sc
        = ((gather_phase1 pre sc).1
            ++ [] :: (gather_phase1 post (gather_phase1 pre sc).2).1,
           (gather_phase1 post (gather_phase1 pre sc).2).2)) := by
  refine ⟨fun e scraped => rfl, fun e url nums => rfl, gather1_length, ?_⟩
  intro pre post e sc
  rw [gather1_append pre (.error e :: post) sc,
    gather1_error_cons e post (gather_phase1 pre sc).2]

/-! ### Claim C2: identifier deduplication -/

/-- The record a successful listing task hands to the duplicate check:
the extracted data with the source URL added (concurr.py line 261). -/
def recOf (soup : Soup) (u : CharL) : Dict :=
  dictSet (extract_listing_data soup) urlK (.str u)

theorem listingNoD_url (rec : Dict) (v : CharL) :
    listingNoD (dictSet rec urlK (.str v)) = listingNoD rec := by
  have h : urlK ≠ listingNoK := by decide
  simp [listingNoD, dictGet_dictSet, h]

theorem listing_step_error (acc : List Dict) (nums : UrlSet) (e u : CharL) :
    listing_step (acc, nums) (Except.error e, u) = (acc, nums) := rfl

theorem listing_step_fresh (acc : List Dict) (nums : UrlSet) (soup : Soup)
    (u : CharL)
    (h : listingNoD (recOf soup u) ≠ "None".data
        ∧ listingNoD (recOf soup u) ∉ nums) :
    listing_step (acc, nums) (Except.ok soup, u)
      = (acc ++ [recOf soup u], insert (listingNoD (recOf soup u)) nums) := by
  simp only [listing_step, async_scrape_listing_model, recOf] at h ⊢
  rw [if_pos h]

theorem listing_step_sentinel (acc : List Dict) (nums : UrlSet) (soup : Soup)
    (u : CharL) (h : listingNoD (recOf soup u) = "None".data) :
    listing_step (acc, nums) (Except.ok soup, u)
      = (acc ++ [recOf soup u], nums) := by
  simp only [listing_step, async_scrape_listing_model, recOf] at h ⊢
  rw [if_neg (fun hc => hc.1 h), if_pos h]

theorem listing_step_dup (acc : List Dict) (nums : UrlSet) (soup : Soup)
    (u : CharL) (h1 : listingNoD (recOf soup u) ≠ "None".data)
    (h2 : listingNoD (recOf soup u) ∈ nums) :
    listing_step (acc, nums) (Except.ok soup, u) = (acc, nums) := by
  simp only [listing_step, async_scrape_listing_model, recOf] at h1 h2 ⊢
  rw [if_neg (fun hc => hc.2 h2), if_neg h1]

theorem phase2_count_nonsentinel (I : CharL) (hI : I ≠ "None".data)
    (fetches : List (Except CharL Soup × CharL)) :
    ∀ (acc : List Dict) (nums : UrlSet),
      (I ∉ nums → acc.countP (fun d => listingNoD d == I) = 0) →
      acc.countP (fun d => listingNoD d == I) ≤ 1 →
      (fetches.foldl listing_step (acc, nums)).1.countP
          (fun d => listingNoD d == I) ≤ 1 := by
  induction fetches with
  | nil => intro acc nums _ h1; exact h1
  | cons fu fetches ih =>
      intro acc nums h0 h1
      rw [List.foldl_cons]
      rcases fu with ⟨f, u⟩
      cases f with
      | error e =>
          rw [listing_step_error]
          exact ih acc nums h0 h1
      | ok soup =>
          by_cases hA : listingNoD (recOf soup u) ≠ "None".data
              ∧ listingNoD (recOf soup u) ∉ nums
          · rw [listing_step_fresh acc nums soup u hA]
            by_cases hdI : listingNoD (recOf soup u) = I
            · have hIn : I ∉ nums := by rw [← hdI]; exact hA.2
              apply ih (acc ++ [recOf soup u]) _ ?_ ?_
              · intro hI2
                exfalso
                apply hI2
                rw [hdI] at hA ⊢
                exact Finset.mem_insert_self I nums
              · rw [List.countP_append, h0 hIn]
                simp [List.countP_cons, hdI]
            · apply ih (acc ++ [recOf soup u]) _ ?_ ?_
              · intro hI2
                have hIn : I ∉ nums := fun hmem => hI2 (Finset.mem_insert_of_mem hmem)
                rw [List.countP_append, h0 hIn]
                simp [List.countP_cons, hdI]
              · rw [List.countP_append]
                have hz : ([recOf soup u].countP (fun d => listingNoD d == I)) = 0 := by
                  simp [List.countP_cons, hdI]
                rw [hz]
                simpa using h1
          · by_cases hB : listingNoD (recOf soup u) = "None".data
            · rw [listing_step_sentinel acc nums soup u hB]
              have hne : ¬(listingNoD (recOf soup u) = I) :=
                fun h => hI (h.symm.trans hB)
              apply ih (acc ++ [recOf soup u]) nums ?_ ?_
              · intro hIn
                rw [List.countP_append, h0 hIn]
                simp [List.countP_cons, hne]
              · rw [List.countP_append]
                have hz : ([recOf soup u].countP (fun d => listingNoD d == I)) = 0 := by
                  simp [List.countP_cons, hne]
                rw [hz]
                simpa using h1
            · have hmem : listingNoD (recOf soup u) ∈ nums := by
                by_contra hmem
                exact hA ⟨hB, hmem⟩
              rw [listing_step_dup acc nums soup u hB hmem]
              exact ih acc nums h0 h1

theorem phase2_sentinel_count (fetches : List (Except CharL Soup × CharL)) :
    ∀ (acc : List Dict) (nums : UrlSet),
      (fetches.foldl listing_step (acc, nums)).1.countP
          (fun d => listingNoD d == "None".data)
        = acc.countP (fun d => listingNoD d == "None".data)
          + fetches.countP okSentinel := by
  induction fetches with
  | nil => intro acc nums; simp
  | cons fu fetches ih =>
      intro acc nums
      rw [List.foldl_cons, List.countP_cons]
      rcases fu with ⟨f, u⟩
      cases f with
      | error e =>
          rw [listing_step_error, ih]
          simp [okSentinel]
      | ok soup =>
          have hno : listingNoD (recOf soup u)
              = listingNoD (extract_listing_data soup) := listingNoD_url _ _
          by_cases hs : listingNoD (extract_listing_data soup) = "None".data
          · have hs' : listingNoD (recOf soup u) = "None".data := hno.trans hs
            have hok : okSentinel (Except.ok soup, u) = true := by
              simp [okSentinel, hs]
            rw [listing_step_sentinel acc nums soup u hs', ih,
              List.countP_append]
            have h1 : ([recOf soup u].countP
                (fun d => listingNoD d == "None".data)) = 1 := by
              simp [List.countP_cons, hs']
            rw [h1, hok]
            simp
            omega
          · have hs' : listingNoD (recOf soup u) ≠ "None".data := by
              rw [hno]; exact hs
            have hok : okSentinel (Except.ok soup, u) = false := by
              simp [okSentinel, hs]
            by_cases hmem : listingNoD (recOf soup u) ∉ nums
            · rw [listing_step_fresh acc nums soup u ⟨hs', hmem⟩, ih,
                List.countP_append]
              have h0 : ([recOf soup u].countP
                  (fun d => listingNoD d == "None".data)) = 0 := by
                simp [List.countP_cons, hs']
              rw [h0, hok]
              simp
            · rw [listing_step_dup acc nums soup u hs' (not_not.mp hmem), ih, hok]
              simp

/-- C2: starting from the empty identifier set, across any completion order
of the phase-2 tasks (the lock-guarded duplicate check runs atomically), at
most one record whose listing number equals a given non-sentinel value `I`
is appended to `data_bun`, while the number of records carrying the sentinel
number `"None"` equals the number of successful tasks whose page extracts
the sentinel — every such record is appended unconditionally. -/
theorem C2_identifier_dedup (fetches : List (Except CharL Soup × CharL))
    (I : CharL) (hI : I ≠ "None".data) :
    (run_phase2 fetches ∅).1.countP (fun d => listingNoD d == I) ≤ 1
    ∧ (run_phase2 fetches ∅).1.countP (fun d => listingNoD d == "None".data)
        = fetches.countP okSentinel := by
  constructor
  · exact phase2_count_nonsentinel I hI fetches [] ∅ (fun _ => rfl) (by simp)
  · have h := phase2_sentinel_count fetches [] ∅
    simpa using h

/-- A minimal parsed listing page for concrete checks: every query fails
except, optionally, the listing-number one. -/
def soupWithNo (no : Option CharL) : Soup :=
  { price_elem := Option.none, size_elem := Option.none,
    readMoreText := Option.none, readMoreContainer := Option.none,
    listingFeatures := [], address_elem := Option.none,
    breadcrumb_items := [], listing_no_elem := no,
    image_wrapper := Option.none }

/-- Four phase-2 tasks: two extracting the same listing number `999`, two
extracting the sentinel. -/
def c2fetches : List (Except CharL Soup × CharL) :=
  [(Except.ok (soupWithNo (some "999".data)), "u1".data),
   (Except.ok (soupWithNo (some "999".data)), "u2".data),
   (Except.ok (soupWithNo Option.none), "u3".data),
   (Except.ok (soupWithNo Option.none), "u4".data)]

/-- C2 witness: the dedup bound applied to the concrete run `c2fetches`. -/
theorem C2_witness :
    "999".data ≠ "None".data
    ∧ (run_phase2 c2fetches ∅).1.countP (fun d => listingNoD d == "999".data) ≤ 1
    ∧ (run_phase2 c2fetches ∅).1.countP (fun d => listingNoD d == "None".data)
        = c2fetches.countP okSentinel := by
  have h := C2_identifier_dedup c2fetches "999".data (by decide)
  exact ⟨by decide, h.1, h.2⟩

/-! ### Claims C7-C9: the extractor's record -/

/-- A feature text whose colon-split promotes the key `k`
(concurr.py lines 146-149). -/
def promotesKey (t k : CharL) : Prop :=
  hasColon t = true ∧ pyStrip (splitColonLeft t) = k

instance (t k : CharL) : Decidable (promotesKey t k) := by
  unfold promotesKey
  infer_instance

/-- The assignments of `extract_listing_data` after the initial price
assignment (`assignList` with its head removed). -/
def assignRest (s : Soup) : List (CharL × FieldVal) :=
  ((((sizeAssigns s ++ [(descK, FieldVal.str (descRule s))])
      ++ promotedOf s.listingFeatures)
    ++ [(featuresK, FieldVal.strList (s.listingFeatures.filter (fun t => !(hasColon t)))),
        (addressK, FieldVal.str (addressRule s))])
    ++ crumbAssigns (crumbsOf s))
    ++ [(listingNoK, FieldVal.str (listingNoRule s)), (imageK, imageRule s)]

theorem assignList_eq_cons (s : Soup) :
    assignList s = (priceK, FieldVal.str (priceRule s)) :: assignRest s := rfl

/-- The final value the extractor leaves in the size field. -/
def sizeRule (s : Soup) : CharL :=
  match s.size_elem with
  | some t => remove_superscripts (sizePre t)
  | Option.none => "None".data

theorem lastVal_one (a : CharL) (v : FieldVal) (k : CharL) :
    lastVal [(a, v)] k = if a == k then some v else Option.none := rfl

theorem lastVal_two (a b : CharL) (va vb : FieldVal) (k : CharL) :
    lastVal [(a, va), (b, vb)] k
      = if b == k then some vb else if a == k then some va else Option.none := by
  by_cases hb : b = k <;> simp [lastVal, hb]

theorem lastVal_one_none (a : CharL) (v : FieldVal) (k : CharL) (ha : a ≠ k) :
    lastVal [(a, v)] k = Option.none := by
  rw [lastVal_one]
  simp [ha]

theorem lastVal_two_none (a b : CharL) (va vb : FieldVal) (k : CharL)
    (ha : a ≠ k) (hb : b ≠ k) :
    lastVal [(a, va), (b, vb)] k = Option.none := by
  rw [lastVal_two]
  simp [ha, hb]

theorem lastVal_append_none (xs ys : List (CharL × FieldVal)) (k : CharL)
    (hy : lastVal ys k = Option.none) :
    lastVal (xs ++ ys) k = lastVal xs k := by
  rw [lastVal_append, hy]

theorem lastVal_append_some (xs ys : List (CharL × FieldVal)) (k : CharL)
    (v : FieldVal) (hy : lastVal ys k = some v) :
    lastVal (xs ++ ys) k = some v := by
  rw [lastVal_append, hy]

theorem sizeAssigns_keys (s : Soup) : ∀ p ∈ sizeAssigns s, p.1 = sizeK := by
  cases hs : s.size_elem <;> simp [sizeAssigns, hs]

theorem crumbAssigns_keys (c : List CharL) :
    ∀ p ∈ crumbAssigns c, p.1 = provinceK ∨ p.1 = cityK ∨ p.1 = townK := by
  intro p hp
  unfold crumbAssigns at hp
  rcases List.mem_append.mp hp with hp' | hp'
  · rcases List.mem_append.mp hp' with hp'' | hp''
    · split_ifs at hp'' <;> simp_all
    · split_ifs at hp'' <;> simp_all
  · split_ifs at hp' <;> simp_all

theorem lastVal_sizeAssigns (s : Soup) :
    lastVal (sizeAssigns s) sizeK = some (FieldVal.str (sizeRule s)) := by
  cases hs : s.size_elem <;> simp [sizeAssigns, sizeRule, hs, lastVal]

theorem promotedOf_none (fs : List CharL) (k : CharL)
    (h : ∀ t ∈ fs, ¬promotesKey t k) :
    lastVal (promotedOf fs) k = Option.none := by
  apply lastVal_eq_none
  intro p hp
  rcases List.mem_filterMap.mp hp with ⟨t, ht, hpt⟩
  by_cases hc : hasColon t
  · rw [if_pos hc] at hpt
    have hpt' := Option.some.inj hpt
    intro hk
    apply h t ht
    refine ⟨hc, ?_⟩
    rw [← hpt'] at hk
    exact hk
  · rw [if_neg hc] at hpt
    exact absurd hpt (by simp)

theorem crumbAssigns_none (s : Soup) (k : CharL)
    (h1 : k ≠ provinceK) (h2 : k ≠ cityK) (h3 : k ≠ townK) :
    lastVal (crumbAssigns (crumbsOf s)) k = Option.none := by
  apply lastVal_eq_none
  intro p hp
  rcases crumbAssigns_keys _ p hp with h | h | h <;> rw [h]
  · exact fun hc => h1 hc.symm
  · exact fun hc => h2 hc.symm
  · exact fun hc => h3 hc.symm

theorem sizeAssigns_none (s : Soup) (k : CharL) (hk : k ≠ sizeK) :
    lastVal (sizeAssigns s) k = Option.none := by
  apply lastVal_eq_none
  intro p hp
  rw [sizeAssigns_keys s p hp]
  exact fun hc => hk hc.symm

theorem extract_price (s : Soup)
    (h : ∀ t ∈ s.listingFeatures, ¬promotesKey t priceK) :
    dictGet (extract_listing_data s) priceK
      = some (FieldVal.str (priceRule s)) := by
  rw [extract_get, assignList_eq_cons]
  have hrest : lastVal (assignRest s) priceK = Option.none := by
    unfold assignRest
    rw [lastVal_append_none _ _ _
        (lastVal_two_none _ _ _ _ _ (by decide) (by decide))]
    rw [lastVal_append_none _ _ _
        (crumbAssigns_none s _ (by decide) (by decide) (by decide))]
    rw [lastVal_append_none _ _ _
        (lastVal_two_none _ _ _ _ _ (by decide) (by decide))]
    rw [lastVal_append_none _ _ _ (promotedOf_none _ _ h)]
    rw [lastVal_append_none _ _ _ (lastVal_one_none _ _ _ (by decide))]
    exact sizeAssigns_none s _ (by decide)
  simp [lastVal, hrest]

theorem extract_size (s : Soup)
    (h : ∀ t ∈ s.listingFeatures, ¬promotesKey t sizeK) :
    dictGet (extract_listing_data s) sizeK
      = some (FieldVal.str (sizeRule s)) := by
  rw [extract_get, assignList_eq_cons]
  have hrest : lastVal (assignRest s) sizeK
      = some (FieldVal.str (sizeRule s)) := by
    unfold assignRest
    rw [lastVal_append_none _ _ _
        (lastVal_two_none _ _ _ _ _ (by decide) (by decide))]
    rw [lastVal_append_none _ _ _
        (crumbAssigns_none s _ (by decide) (by decide) (by decide))]
    rw [lastVal_append_none _ _ _
        (lastVal_two_none _ _ _ _ _ (by decide) (by decide))]
    rw [lastVal_append_none _ _ _ (promotedOf_none _ _ h)]
    rw [lastVal_append_none _ _ _ (lastVal_one_none _ _ _ (by decide))]
    exact lastVal_sizeAssigns s
  simp [lastVal, hrest]

theorem extract_desc (s : Soup)
    (h : ∀ t ∈ s.listingFeatures, ¬promotesKey t descK) :
    dictGet (extract_listing_data s) descK
      = some (FieldVal.str (descRule s)) := by
  rw [extract_get, assignList_eq_cons]
  have hrest : lastVal (assignRest s) descK
      = some (FieldVal.str (descRule s)) := by
    unfold assignRest
    rw [lastVal_append_none _ _ _
        (lastVal_two_none _ _ _ _ _ (by decide) (by decide))]
    rw [lastVal_append_none _ _ _
        (crumbAssigns_none s _ (by decide) (by decide) (by decide))]
    rw [lastVal_append_none _ _ _
        (lastVal_two_none _ _ _ _ _ (by decide) (by decide))]
    rw [lastVal_append_none _ _ _ (promotedOf_none _ _ h)]
    apply lastVal_append_some
    rw [lastVal_one]
    simp
  simp [lastVal, hrest]

theorem extract_promoted (s : Soup) (k : CharL) (v : FieldVal)
    (hf : k ≠ featuresK) (ha : k ≠ addressK) (hpv : k ≠ provinceK)
    (hc : k ≠ cityK) (ht : k ≠ townK) (hl : k ≠ listingNoK) (hi : k ≠ imageK)
    (hp : lastVal (promotedOf s.listingFeatures) k = some v) :
    dictGet (extract_listing_data s) k = some v := by
  rw [extract_get, assignList_eq_cons]
  have hrest : lastVal (assignRest s) k = some v := by
    unfold assignRest
    rw [lastVal_append_none _ _ _
        (lastVal_two_none _ _ _ _ _ (Ne.symm hl) (Ne.symm hi))]
    rw [lastVal_append_none _ _ _ (crumbAssigns_none s _ hpv hc ht)]
    rw [lastVal_append_none _ _ _
        (lastVal_two_none _ _ _ _ _ (Ne.symm hf) (Ne.symm ha))]
    exact lastVal_append_some _ _ _ _ hp
  simp [lastVal, hrest]

theorem extract_address (s : Soup) :
    dictGet (extract_listing_data s) addressK
      = some (FieldVal.str (addressRule s)) := by
  rw [extract_get, assignList_eq_cons]
  have hrest : lastVal (assignRest s) addressK
      = some (FieldVal.str (addressRule s)) := by
    unfold assignRest
    rw [lastVal_append_none _ _ _
        (lastVal_two_none _ _ _ _ _ (by decide) (by decide))]
    rw [lastVal_append_none _ _ _
        (crumbAssigns_none s _ (by decide) (by decide) (by decide))]
    apply lastVal_append_some
    rw [lastVal_two]
    simp
  simp [lastVal, hrest]

theorem extract_features (s : Soup) :
    dictGet (extract_listing_data s) featuresK
      = some (FieldVal.strList
          (s.listingFeatures.filter (fun t => !(hasColon t)))) := by
  rw [extract_get, assignList_eq_cons]
  have hrest : lastVal (assignRest s) featuresK
      = some (FieldVal.strList
          (s.listingFeatures.filter (fun t => !(hasColon t)))) := by
    unfold assignRest
    rw [lastVal_append_none _ _ _
        (lastVal_two_none _ _ _ _ _ (by decide) (by decide))]
    rw [lastVal_append_none _ _ _
        (crumbAssigns_none s _ (by decide) (by decide) (by decide))]
    apply lastVal_append_some
    rw [lastVal_two]
    have h1 : (addressK == featuresK) = false := by decide
    have h2 : (featuresK == featuresK) = true := by decide
    rw [h1, h2]
    simp
  simp [lastVal, hrest]

theorem extract_listingNo (s : Soup) :
    dictGet (extract_listing_data s) listingNoK
      = some (FieldVal.str (listingNoRule s)) := by
  rw [extract_get, assignList_eq_cons]
  have hrest : lastVal (assignRest s) listingNoK
      = some (FieldVal.str (listingNoRule s)) := by
    unfold assignRest
    apply lastVal_append_some
    rw [lastVal_two]
    have h1 : (imageK == listingNoK) = false := by decide
    have h2 : (listingNoK == listingNoK) = true := by decide
    rw [h1, h2]
    simp
  simp [lastVal, hrest]

theorem extract_image (s : Soup) :
    dictGet (extract_listing_data s) imageK = some (imageRule s) := by
  rw [extract_get, assignList_eq_cons]
  have hrest : lastVal (assignRest s) imageK = some (imageRule s) := by
    unfold assignRest
    apply lastVal_append_some
    rw [lastVal_two]
    simp
  simp [lastVal, hrest]

/-- A listing page with no price element but a feature text promoting the
key `price`. -/
def c7soup : Soup :=
  { price_elem := Option.none, size_elem := Option.none,
    readMoreText := Option.none, readMoreContainer := Option.none,
    listingFeatures := ["price:R 100".data], address_elem := Option.none,
    breadcrumb_items := [], listing_no_elem := Option.none,
    image_wrapper := Option.none }

/-- C7 counterexample: a page with no price element need not end with the
`"None"` sentinel in its price field — a feature text `price:R 100` is
promoted to the top-level key `price` and overwrites the sentinel. -/
theorem C7_counterexample :
    c7soup.price_elem = Option.none
    ∧ dictGet (extract_listing_data c7soup) priceK
        ≠ some (FieldVal.str "None".data) := by
  exact ⟨rfl, by decide⟩

/-- C7 (amended): for a page with no price element the record's price field
is the `"None"` sentinel provided no feature text promotes the key `price`;
and independently of everything else, the price element's presence or
absence affects no other field: records extracted from two pages differing
only in the price query agree on every key other than `price`. -/
theorem C7_missing_price_amended (s : Soup) :
    (s.price_elem = Option.none →
      (∀ t ∈ s.listingFeatures, ¬promotesKey t priceK) →
      dictGet (extract_listing_data s) priceK = some (FieldVal.str "None".data))
    ∧ (∀ (p : Option CharL) (k : CharL), k ≠ priceK →
        dictGet (extract_listing_data { s with price_elem := p }) k
          = dictGet (extract_listing_data s) k) := by
  constructor
  · intro hp hfeat
    rw [extract_price s hfeat]
    simp [priceRule, hp]
  · intro p k hk
    rw [extract_get, extract_get]
    have h1 : assignList { s with price_elem := p }
        = (priceK, FieldVal.str (priceRule { s with price_elem := p }))
            :: assignRest s := rfl
    have h2 : assignList s
        = (priceK, FieldVal.str (priceRule s)) :: assignRest s := rfl
    rw [h1, h2]
    have hne : (priceK == k) = false := by
      simp
      exact fun hc => hk hc.symm
    cases hlv : lastVal (assignRest s) k <;> simp [lastVal, hlv, hne]

/-- C7 witness: the amended statement at a concrete page with no price
element and no promoted `price` key. -/
theorem C7_witness :
    (soupWithNo Option.none).price_elem = Option.none
    ∧ dictGet (extract_listing_data (soupWithNo Option.none)) priceK
        = some (FieldVal.str "None".data) := by
  refine ⟨rfl, ?_⟩
  exact (C7_missing_price_amended (soupWithNo Option.none)).1 rfl (by decide)

/-- A listing page whose feature text promotes the key `address`, which the
extractor later reassigns from the address element. -/
def c8soup : Soup :=
  { price_elem := Option.none, size_elem := Option.none,
    readMoreText := Option.none, readMoreContainer := Option.none,
    listingFeatures := ["address:Nice Place".data],
    address_elem := some "Real St".data,
    breadcrumb_items := [], listing_no_elem := Option.none,
    image_wrapper := Option.none }

/-- C8 counterexample: a colon feature's trimmed left side does become a
dict key, but its value does not always survive into the record — here the
feature `address:Nice Place` is overwritten by the later address
assignment, so the record's `address` value is `Real St`, not the feature's
right-of-colon text. -/
theorem C8_counterexample :
    (hasColon "address:Nice Place".data = true
      ∧ pyStrip (splitColonLeft "address:Nice Place".data) = addressK)
    ∧ dictGet (extract_listing_data c8soup) addressK
        = some (FieldVal.str "Real St".data)
    ∧ dictGet (extract_listing_data c8soup) addressK
        ≠ some (FieldVal.str (pyStrip (splitColonRight "address:Nice Place".data))) := by
  exact ⟨⟨by decide, by decide⟩, by decide, by decide⟩

/-- C8 (amended): every colon feature contributes its trimmed (key, value)
pair to the promoted assignments, and the record maps a promoted key to the
last value promoted for it, provided the key is none of the field names the
extractor assigns after the feature loop (`features`, `address`,
`Province`, `City`, `Town`, `ListingNo`, `image_url`); colon features add
nothing to the features list, and the record's features list is exactly the
colon-free feature texts in order (each already whitespace-trimmed by the
parser's stripped-text query). -/
theorem C8_features_amended (s : Soup) :
    (∀ t ∈ s.listingFeatures, hasColon t = true →
      (pyStrip (splitColonLeft t), FieldVal.str (pyStrip (splitColonRight t)))
        ∈ promotedOf s.listingFeatures)
    ∧ (∀ (k : CharL) (v : FieldVal),
        lastVal (promotedOf s.listingFeatures) k = some v →
        k ≠ featuresK → k ≠ addressK → k ≠ provinceK → k ≠ cityK → k ≠ townK →
        k ≠ listingNoK → k ≠ imageK →
        dictGet (extract_listing_data s) k = some v)
    ∧ dictGet (extract_listing_data s) featuresK
        = some (FieldVal.strList
            (s.listingFeatures.filter (fun t => !(hasColon t)))) := by
  refine ⟨?_, ?_, extract_features s⟩
  · intro t ht hc
    exact List.mem_filterMap.mpr ⟨t, ht, by rw [if_pos hc]⟩
  · intro k v hp hf ha hpv hc htn hl hi
    exact extract_promoted s k v hf ha hpv hc htn hl hi hp

/-- A listing page with one promotable feature `Pool: Yes`. -/
def c8soupW : Soup :=
  { price_elem := Option.none, size_elem := Option.none,
    readMoreText := Option.none, readMoreContainer := Option.none,
    listingFeatures := ["Pool: Yes".data], address_elem := Option.none,
    breadcrumb_items := [], listing_no_elem := Option.none,
    image_wrapper := Option.none }

/-- C8 witness: the amended statement at a concrete feature `Pool: Yes`. -/
theorem C8_witness :
    lastVal (promotedOf c8soupW.listingFeatures) "Pool".data
        = some (FieldVal.str "Yes".data)
    ∧ dictGet (extract_listing_data c8soupW) "Pool".data
        = some (FieldVal.str "Yes".data) := by
  refine ⟨by decide, ?_⟩
  exact (C8_features_amended c8soupW).2.1 "Pool".data _ (by decide) (by decide)
    (by decide) (by decide) (by decide) (by decide) (by decide) (by decide)

/-- C9: a promoted feature key equal to an earlier-extracted field name
(`price`, `size`, `description`) overwrites that field: the record maps the
key to the last promoted value instead of the field rule's result; and every
field whose name no feature promotes keeps the value of its own extraction
rule (the fields assigned after the loop — `features`, `address`,
`ListingNo`, `image_url` — do so unconditionally). -/
theorem C9_promoted_overwrites (s : Soup) :
    (∀ (k : CharL) (v : FieldVal),
      (k = priceK ∨ k = sizeK ∨ k = descK) →
      lastVal (promotedOf s.listingFeatures) k = some v →
      dictGet (extract_listing_data s) k = some v)
    ∧ ((∀ t ∈ s.listingFeatures, ¬promotesKey t priceK) →
        dictGet (extract_listing_data s) priceK
          = some (FieldVal.str (priceRule s)))
    ∧ ((∀ t ∈ s.listingFeatures, ¬promotesKey t sizeK) →
        dictGet (extract_listing_data s) sizeK
          = some (FieldVal.str (sizeRule s)))
    ∧ ((∀ t ∈ s.listingFeatures, ¬promotesKey t descK) →
        dictGet (extract_listing_data s) descK
          = some (FieldVal.str (descRule s)))
    ∧ dictGet (extract_listing_data s) addressK
        = some (FieldVal.str (addressRule s))
    ∧ dictGet (extract_listing_data s) listingNoK
        = some (FieldVal.str (listingNoRule s))
    ∧ dictGet (extract_listing_data s) imageK = some (imageRule s) := by
  refine ⟨?_, extract_price s, extract_size s, extract_desc s,
    extract_address s, extract_listingNo s, extract_image s⟩
  intro k v hk hp
  rcases hk with rfl | rfl | rfl
  · exact extract_promoted s _ v (by decide) (by decide) (by decide) (by decide)
      (by decide) (by decide) (by decide) hp
  · exact extract_promoted s _ v (by decide) (by decide) (by decide) (by decide)
      (by decide) (by decide) (by decide) hp
  · exact extract_promoted s _ v (by decide) (by decide) (by decide) (by decide)
      (by decide) (by decide) (by decide) hp

/-- A listing page whose price element is present while a feature text
`price: R 999` promotes the key `price`. -/
def c9soup : Soup :=
  { price_elem := some "R 100".data, size_elem := Option.none,
    readMoreText := Option.none, readMoreContainer := Option.none,
    listingFeatures := ["price: R 999".data], address_elem := Option.none,
    breadcrumb_items := [], listing_no_elem := Option.none,
    image_wrapper := Option.none }

/-- C9 witness: on a concrete page the promoted feature value `R 999`
replaces the extracted price `R 100` in the final record. -/
theorem C9_witness :
    lastVal (promotedOf c9soup.listingFeatures) priceK
        = some (FieldVal.str "R 999".data)
    ∧ dictGet (extract_listing_data c9soup) priceK
        = some (FieldVal.str "R 999".data)
    ∧ priceRule c9soup = "R 100".data := by
  refine ⟨by decide, ?_, by decide⟩
  exact (C9_promoted_overwrites c9soup).1 priceK _ (Or.inl rfl) (by decide)
